import Mathlib

/-!
Verification of the generation step of cGameOfLife (`src/main.c`).

A shallow embedding of `toggle`, `iterateToggleList` and `nextGeneration`
(lines 158-235) together with the properties of the generation step.

Modelling conventions.

* `int` values are mathematical integers (`Int`).  On a grid of 0/1 cells with
  dimensions `m`, `n` every intermediate value of the C code is bounded in
  magnitude by `m * n + 9`, which fits in `int` whenever the array can be
  indexed by `int` at all, so no wrap-around is modelled.
* `%` is the remainder of C, truncating toward zero (`Int.tmod`); a zero
  divisor is a fault.
* The cell array `arr` is a `List Int`; `arr + idx` may only be dereferenced
  for `0 ≤ idx < arr.length`, anything else is the fault `outOfBounds`.
* The toggle list lives in an explicit heap of `Node` blocks.  A `Coord`
  block is reachable only through the one node that owns it, so a pointer to
  it is represented by the pointee; `free` of a node marks its block as
  released, and a later access to it is a fault.
* `malloc` is assumed to succeed.
-/

namespace GameOfLife

/-! ## Faults and results -/

/-- Ways in which the C code leaves defined behaviour (plus the loop budget of
the model, which `iterateLoop_fuel_enough` shows is never the reported fault
of `iterateToggleList`). -/
inductive Fault where
  | outOfBounds
  | divByZero
  | nullDeref
  | danglingPointer
  | indeterminateValue
  | fuelExhausted
  deriving DecidableEq, Repr

/-- Result of running a piece of the program: a value, or the first fault. -/
abbrev Exec (α : Type) := Except Fault α

instance instDecidableEqExec {α : Type} [DecidableEq α] : DecidableEq (Exec α)
  | .ok a, .ok b => if h : a = b then isTrue (by rw [h]) else isFalse (fun e => h (by cases e; rfl))
  | .error a, .error b => if h : a = b then isTrue (by rw [h]) else isFalse (fun e => h (by cases e; rfl))
  | .ok _, .error _ => isFalse (fun e => by cases e)
  | .error _, .ok _ => isFalse (fun e => by cases e)

/-! ## Integer and array primitives -/

/-- C `a % b` on `int`: remainder of the division truncating toward zero. -/
def cRem (a b : Int) : Exec Int :=
  if b = 0 then .error .divByZero else .ok (Int.tmod a b)

/-- The read `*(arr + idx)`. -/
def readCell (arr : List Int) (idx : Int) : Exec Int :=
  if 0 ≤ idx ∧ idx < arr.length then .ok (arr.getD idx.toNat 0) else .error .outOfBounds

/-- Source `toggle` (lines 158-161) applied to the cell `arr + idx`. -/
def toggle (arr : List Int) (idx : Int) : Exec (List Int) := do
  let cellValue ← readCell arr idx
  pure (arr.set idx.toNat (if cellValue = 0 then 1 else 0))

/-! ## The toggle list -/

/-- Source `Coord` (lines 23-26). -/
structure Coord where
  x : Int
  y : Int
  deriving DecidableEq, Repr

/-- Content of a pointer-valued field of a heap block. -/
inductive Field (α : Type) where
  | indeterminate
  | null
  | addr (a : α)
  deriving DecidableEq, Repr

/-- Source `Node` (lines 29-32). -/
structure Node where
  coord : Field Coord
  next : Field Nat
  deriving DecidableEq, Repr

/-- The heap of `Node` blocks: the address is the position, `none` is a block
that has been released. -/
abbrev Heap := List (Option Node)

/-- A `Node *`: `none` is `NULL`. -/
abbrev NodePtr := Option Nat

/-- The call `malloc(sizeof(Node))`: the heap with a new block of indeterminate
contents, and the address of that block. -/
def malloc (heap : Heap) : Heap × Nat :=
  (heap ++ [some ⟨.indeterminate, .indeterminate⟩], heap.length)

/-- Access to the block `p` points to. -/
def load (heap : Heap) (p : NodePtr) : Exec Node :=
  match p with
  | none => .error .nullDeref
  | some a =>
    match heap.getD a none with
    | some nd => .ok nd
    | none => .error .danglingPointer

/-- Assignment to a field of the block `p` points to. -/
def store (heap : Heap) (p : NodePtr) (f : Node → Node) : Exec Heap :=
  match p with
  | none => .error .nullDeref
  | some a =>
    match heap.getD a none with
    | some nd => .ok (heap.set a (some (f nd)))
    | none => .error .danglingPointer

/-- The call `free(p)` on a node pointer; `free(NULL)` does nothing. -/
def free (heap : Heap) (p : NodePtr) : Exec Heap :=
  match p with
  | none => .ok heap
  | some a =>
    match heap.getD a none with
    | some _ => .ok (heap.set a none)
    | none => .error .danglingPointer

/-- The `while` loop of `iterateToggleList` (lines 167-184) with the final
release of the sentinel; the first argument bounds the number of loop tests. -/
def iterateLoop : Nat → NodePtr → Heap → List Int → Int → Exec (List Int)
  | 0, _, _, _, _ => .error .fuelExhausted
  | fuel + 1, current, heap, arr, columns => do
    let tmp ← load heap current
    match tmp.coord with
    | .indeterminate => .error .indeterminateValue
    | .null =>
      -- loop exit: free(current->coord) is free(NULL); free(current)
      let _ ← free heap current
      pure arr
    | .addr c =>
      let arr1 ← toggle arr (c.x * columns + c.y)
      let next ←
        match tmp.next with
        | .indeterminate => .error .indeterminateValue
        | .null => pure none
        | .addr a => pure (some a)
      let heap1 ← free heap current
      iterateLoop fuel next heap1 arr1 columns

/-- Source `iterateToggleList` (lines 163-185).  Every loop test reads a live
block and every completed iteration releases one, so the loop cannot make more
tests than there are blocks without faulting. -/
def iterateToggleList (head : NodePtr) (heap : Heap) (arr : List Int) (columns : Int) :
    Exec (List Int) :=
  iterateLoop (heap.length + 1) head heap arr columns

/-! ## The scan -/

/-- The read of one cell of the 3x3 block (lines 202-204). -/
def neighbourCell (arr : List Int) (m n i j k l : Int) : Exec Int := do
  let nX ← cRem (i + k) (m - 1)
  let nY ← cRem (j + l) (n - 1)
  readCell arr (nX * n + nY)

/-- The loops over `k` and `l` (lines 194-206): the sum of the nine reads. -/
def sumBlock (arr : List Int) (m n i j : Int) : Exec Int :=
  [-1, 0, 1].foldlM (fun cnt k =>
    [-1, 0, 1].foldlM (fun cnt l => do
      let v ← neighbourCell arr m n i j k l
      pure (cnt + v)) cnt) 0

/-- The value of `cntNeighbours` after line 209: the block sum minus the cell. -/
def countNeighbours (arr : List Int) (m n i j : Int) : Exec Int := do
  let s ← sumBlock arr m n i j
  let cell ← readCell arr (i * n + j)
  pure (s - cell)

/-- The condition of the `if` at lines 212-214. -/
def toggleCondition (cell cntNeighbours : Int) : Bool :=
  (cell == 1 && decide (cntNeighbours < 2)) ||
  (cell == 1 && decide (cntNeighbours > 3)) ||
  (cell == 0 && cntNeighbours == 3)

/-- Whether the scan adds cell `(i, j)` to the toggle list (lines 194-214). -/
def selects (arr : List Int) (m n i j : Int) : Exec Bool := do
  let s ← sumBlock arr m n i j
  let cell ← readCell arr (i * n + j)
  let cntNeighbours := s - cell
  pure (toggleCondition cell cntNeighbours)

/-- The local variables `head` and `current` of `nextGeneration` and the heap. -/
structure Builder where
  head : NodePtr
  current : NodePtr
  heap : Heap
  deriving DecidableEq, Repr

/-- Lines 190-191: `head = NULL; current = malloc(sizeof(Node))`. -/
def Builder.init : Builder :=
  let r := malloc []
  ⟨none, some r.2, r.1⟩

/-- Lines 216-227: append the coordinate `(i, j)` to the list. -/
def addToggle (st : Builder) (i j : Int) : Exec Builder := do
  let head := if st.head = none then st.current else st.head
  let coord : Coord := ⟨i, j⟩
  let r := malloc st.heap
  let heap1 ← store r.1 st.current (fun nd => { nd with next := .addr r.2 })
  let heap2 ← store heap1 st.current (fun nd => { nd with coord := .addr coord })
  pure ⟨head, some r.2, heap2⟩

/-- The body of the loop over `j` (lines 194-229) for the cell `(i, j)`. -/
def cellStep (arr : List Int) (m n : Int) (st : Builder) (i j : Int) : Exec Builder := do
  let b ← selects arr m n i j
  if b then addToggle st i j else pure st

/-- The values `0, 1, ..., bound - 1` a loop `for (int v = 0; v < bound; v++)`
runs through. -/
def loopRange (bound : Int) : List Int :=
  (List.range bound.toNat).map Int.ofNat

/-- The loops over `i` and `j` (lines 192-231). -/
def scan (arr : List Int) (m n : Int) : Exec Builder :=
  (loopRange m).foldlM (fun st i =>
    (loopRange n).foldlM (fun st j => cellStep arr m n st i j) st) Builder.init

/-- Line 233: `current->coord = NULL`. -/
def markEnd (st : Builder) : Exec Heap :=
  store st.heap st.current (fun nd => { nd with coord := .null })

/-- Source `nextGeneration` (lines 187-235): the cell array after the call. -/
def nextGeneration (arr : List Int) (m n : Int) : Exec (List Int) := do
  let st ← scan arr m n
  let heap ← markEnd st
  iterateToggleList st.head heap arr n

/-! ## The scan in an arbitrary order

The same loop body run over an explicit list of cells; `scan` is the instance
with the row-major list (`scan_eq_scanCells`). -/

/-- The cells in the order the loops of lines 192-193 visit them. -/
def rowMajor (m n : Int) : List (Int × Int) :=
  (loopRange m).flatMap (fun i => (loopRange n).map (fun j => (i, j)))

/-- The loop body of the scan run over the cells of `cells`, in that order,
from the builder `st`. -/
def scanFrom (arr : List Int) (m n : Int) (cells : List (Int × Int)) (st : Builder) :
    Exec Builder :=
  cells.foldlM (fun st c => cellStep arr m n st c.1 c.2) st

/-- The scan of `nextGeneration` with the cells visited in the order of `cells`. -/
def scanCells (arr : List Int) (m n : Int) (cells : List (Int × Int)) : Exec Builder :=
  scanFrom arr m n cells Builder.init

/-- The generation step with the scan visiting the cells in the order of `cells`. -/
def nextGenerationIn (cells : List (Int × Int)) (arr : List Int) (m n : Int) :
    Exec (List Int) := do
  let st ← scanCells arr m n cells
  let heap ← markEnd st
  iterateToggleList st.head heap arr n

/-! ## Vocabulary of the statements -/

/-- The cells of `cells` the scan selects, as coordinates, in the order of `cells`. -/
def selectedOf (arr : List Int) (m n : Int) (cells : List (Int × Int)) : List Coord :=
  (cells.filter (fun c => decide (selects arr m n c.1 c.2 = .ok true))).map
    (fun c => (⟨c.1, c.2⟩ : Coord))

/-- The heap blocks of a list holding the coordinates `cs`, the first block at
address `s`, each block linked to the next address. -/
def nodesOf (s : Nat) : List Coord → Heap
  | [] => []
  | c :: cs => some ⟨.addr c, .addr (s + 1)⟩ :: nodesOf (s + 1) cs

/-- The builder after `cs` has been appended to the empty list: the blocks of
`cs` followed by the block `current` points to, which is still indeterminate. -/
def builderOf (cs : List Coord) : Builder :=
  ⟨if cs = [] then none else some 0, some cs.length,
    nodesOf 0 cs ++ [some ⟨.indeterminate, .indeterminate⟩]⟩

/-- The value `toggle` writes over the value `v`. -/
def flipValue (v : Int) : Int := if v = 0 then 1 else 0

/-- The toggles of the coordinates `cs`, applied in list order. -/
def toggleAll (arr : List Int) (columns : Int) (cs : List Coord) : Exec (List Int) :=
  cs.foldlM (fun a c => toggle a (c.x * columns + c.y)) arr

/-- Number of blocks of the heap that have not been released. -/
def liveCount (heap : Heap) : Nat :=
  (heap.filter Option.isSome).length

/-- The eight offsets of the Moore neighbourhood. -/
def mooreOffsets : List (Int × Int) :=
  [(-1, -1), (-1, 0), (-1, 1), (0, -1), (0, 1), (1, -1), (1, 0), (1, 1)]

/-- Number of live cells (cells of value 1) among the eight Moore neighbours
`(i + k, j + l)` of the cell `(i, j)` of a grid with `n` columns, without any
wrapping: the count the specification asks of the neighbour counter for a cell
away from the edges. -/
def liveMooreNeighbours (arr : List Int) (n i j : Int) : Nat :=
  mooreOffsets.countP (fun o => decide (arr.getD ((i + o.1) * n + (j + o.2)).toNat 0 = 1))

/-- The grid of `m` rows and `n` columns whose only live cells are the 2x2
square with top-left corner `(r, c)`. -/
def blockGrid (m n r c : Int) : List Int :=
  (rowMajor m n).map (fun p =>
    if (p.1 = r ∨ p.1 = r + 1) ∧ (p.2 = c ∨ p.2 = c + 1) then 1 else 0)

/-- The call `nextGeneration` repeated `t` times on the same array. -/
def iterateGenerations (m n : Int) : Nat → List Int → Exec (List Int)
  | 0, arr => pure arr
  | t + 1, arr => do
    let arr1 ← nextGeneration arr m n
    iterateGenerations m n t arr1

/-! ## The rule and the wrap as the specification words them -/

/-- State of a cell in the specification. -/
inductive CellState where
  | dead
  | alive
  deriving DecidableEq, Repr

/-- The specification state of a cell value of the array: 1 is alive, 0 is dead. -/
def stateOf (cell : Int) : CellState :=
  if cell = 1 then .alive else .dead

/-- The rule of the specification (section 4.3): a live cell with fewer than 2
or more than 3 live neighbours dies, a live cell with 2 or 3 stays alive, a dead
cell with exactly 3 becomes alive, any other dead cell stays dead. -/
def nextState (current : CellState) (liveNeighbors : Int) : CellState :=
  match current with
  | .alive =>
    if liveNeighbors < 2 then .dead
    else if liveNeighbors > 3 then .dead
    else .alive
  | .dead =>
    if liveNeighbors = 3 then .alive else .dead

/-- The toroidal neighbour index of the specification (section 4.2): the cell
`((i + k) mod m, (j + l) mod n)` with the non-negative modulo over the full
dimension, as a flat index into a grid with `n` columns. -/
def toroidalIndex (m n i j k l : Int) : Int :=
  ((i + k) % m) * n + ((j + l) % n)

/-! ## The rule evaluator -/

/-- C5: for a cell value `c` in {0,1} and any integer count `k`, the condition
under which `nextGeneration` adds the cell to the toggle list holds exactly when
the rule of the specification changes the state of the cell. -/
theorem toggleCondition_iff_nextState_differs (c k : Int) (hc : c = 0 ∨ c = 1) :
    toggleCondition c k = true ↔ nextState (stateOf c) k ≠ stateOf c := by
  rcases hc with rfl | rfl
  · by_cases h : k = 3 <;> simp [toggleCondition, nextState, stateOf, h]
  · by_cases h1 : k < 2
    · simp [toggleCondition, nextState, stateOf, h1]
    · by_cases h2 : k > 3
      · simp [toggleCondition, nextState, stateOf, h1, h2]
      · simp [toggleCondition, nextState, stateOf, h1, h2]

/-- Witness of C5: a dead cell with three live neighbours is selected. -/
theorem toggleCondition_iff_nextState_differs_witness :
    ((0 : Int) = 0 ∨ (0 : Int) = 1) ∧
      (toggleCondition 0 3 = true ↔ nextState (stateOf 0) 3 ≠ stateOf 0) :=
  ⟨Or.inl rfl, toggleCondition_iff_nextState_differs 0 3 (Or.inl rfl)⟩

/-! ## Evaluations of the code at small grids -/

/-- C2: the wrap of the code is not the toroidal wrap.  On the 2x2 grid with
only cell (1,1) alive, the read for cell (1,1) at offset (0,0) returns the value
of cell (0,0), not of cell (1,1); with three rows, offset -1 from row 0 gives
row -1 where the torus has row 2, and offset 0 from row 2 gives row 0. -/
theorem wrap_is_not_toroidal :
    neighbourCell [0, 0, 0, 1] 2 2 1 1 0 0 = .ok 0 ∧
    readCell [0, 0, 0, 1] (toroidalIndex 2 2 1 1 0 0) = .ok 1 ∧
    cRem (0 + -1) (3 - 1) = .ok (-1) ∧ (0 + -1 : Int) % 3 = 2 ∧
    cRem (2 + 0) (3 - 1) = .ok 0 ∧ (2 + 0 : Int) % 3 = 2 := by
  decide

/-- C3: the scan reads outside the grid.  On a 3x3 grid the wrapped coordinates
of cell (0,0) at offset (-1,-1) are (-1,-1), the read at flat index -4 is out
of bounds, and so `nextGeneration` faults. -/
theorem scan_reads_out_of_bounds :
    cRem (0 + -1) (3 - 1) = .ok (-1) ∧
    (-1 : Int) * 3 + -1 = -4 ∧
    neighbourCell [0, 1, 0, 0, 1, 0, 0, 1, 0] 3 3 0 0 (-1) (-1) = .error .outOfBounds ∧
    nextGeneration [0, 1, 0, 0, 1, 0, 0, 1, 0] 3 3 = .error .outOfBounds := by
  decide

/-- C4: the count fed to the rule leaves [0,8].  On 2x2 grids all nine reads hit
cell (0,0), so for cell (1,1) the count is -1 when only (1,1) is alive and 9
when only (0,0) is alive. -/
theorem count_leaves_range :
    countNeighbours [0, 0, 0, 1] 2 2 1 1 = .ok (-1) ∧
    countNeighbours [1, 0, 0, 0] 2 2 1 1 = .ok 9 := by
  decide

/-- C6: on the all-dead 2x2 grid the scan selects no cell, `head` is still
`NULL` after it, and `nextGeneration` faults on the first test of the loop of
`iterateToggleList`. -/
theorem stable_generation_faults :
    scan [0, 0, 0, 0] 2 2 = .ok (builderOf []) ∧
    (builderOf []).head = none ∧
    nextGeneration [0, 0, 0, 0] 2 2 = .error .nullDeref := by
  decide

/-- C7: on the 6x6 grid whose only live cells are the block with corner (2,2),
which has two dead cells of margin to every edge, `nextGeneration` does not
return the grid: the first read of the scan, for cell (0,0) at offset (-1,-1),
is out of bounds and the call faults. -/
theorem block_still_life_faults :
    blockGrid 6 6 2 2 =
      [0, 0, 0, 0, 0, 0,
       0, 0, 0, 0, 0, 0,
       0, 0, 1, 1, 0, 0,
       0, 0, 1, 1, 0, 0,
       0, 0, 0, 0, 0, 0,
       0, 0, 0, 0, 0, 0] ∧
    cRem (0 + -1) (6 - 1) = .ok (-1) ∧
    neighbourCell (blockGrid 6 6 2 2) 6 6 0 0 (-1) (-1) = .error .outOfBounds ∧
    nextGeneration (blockGrid 6 6 2 2) 6 6 = .error .outOfBounds ∧
    iterateGenerations 6 6 1 (blockGrid 6 6 2 2) = .error .outOfBounds := by
  decide

/-! ## Basic facts about the primitives -/

theorem ok_bind {α β : Type} (a : α) (f : α → Exec β) : (Except.ok a >>= f) = f a := rfl

theorem error_bind {α β : Type} (e : Fault) (f : α → Exec β) :
    ((Except.error e : Exec α) >>= f) = Except.error e := rfl

theorem pure_eq_ok {α : Type} (a : α) : (pure a : Exec α) = Except.ok a := rfl

theorem cRem_of_ne_zero (a b : Int) (h : b ≠ 0) : cRem a b = .ok (a.tmod b) := by
  simp [cRem, h]

theorem readCell_of_inBounds (arr : List Int) (idx : Int) (h0 : 0 ≤ idx)
    (h1 : idx < arr.length) : readCell arr idx = .ok (arr.getD idx.toNat 0) := by
  simp [readCell, h0, h1]

theorem readCell_of_neg (arr : List Int) (idx : Int) (h : idx < 0) :
    readCell arr idx = .error .outOfBounds := by
  have : ¬ (0 ≤ idx) := by omega
  simp [readCell, this]

theorem readCell_agree (arr arr2 : List Int) (bound idx : Int)
    (hlen : arr.length = arr2.length)
    (hagree : ∀ t : Nat, (t : Int) ≤ bound → arr.getD t 0 = arr2.getD t 0)
    (hidx : idx ≤ bound) : readCell arr idx = readCell arr2 idx := by
  unfold readCell
  rw [hlen]
  by_cases h : 0 ≤ idx ∧ idx < (arr2.length : Int)
  · rw [if_pos h, if_pos h, hagree idx.toNat (by rw [Int.toNat_of_nonneg h.1]; exact hidx)]
  · rw [if_neg h, if_neg h]

theorem sumBlock_eq (arr : List Int) (m n i j : Int) :
    sumBlock arr m n i j =
      (do
        let a ← neighbourCell arr m n i j (-1) (-1)
        let b ← neighbourCell arr m n i j (-1) 0
        let c ← neighbourCell arr m n i j (-1) 1
        let d ← neighbourCell arr m n i j 0 (-1)
        let e ← neighbourCell arr m n i j 0 0
        let f ← neighbourCell arr m n i j 0 1
        let g ← neighbourCell arr m n i j 1 (-1)
        let h ← neighbourCell arr m n i j 1 0
        let k ← neighbourCell arr m n i j 1 1
        pure (0 + a + b + c + d + e + f + g + h + k)) := by
  simp [sumBlock, List.foldlM]

theorem sumBlock_congr (arr arr2 : List Int) (m n i j : Int)
    (h : ∀ k ∈ ([-1, 0, 1] : List Int), ∀ l ∈ ([-1, 0, 1] : List Int),
      neighbourCell arr m n i j k l = neighbourCell arr2 m n i j k l) :
    sumBlock arr m n i j = sumBlock arr2 m n i j := by
  rw [sumBlock_eq, sumBlock_eq]
  rw [h (-1) (by simp) (-1) (by simp), h (-1) (by simp) 0 (by simp),
    h (-1) (by simp) 1 (by simp), h 0 (by simp) (-1) (by simp), h 0 (by simp) 0 (by simp),
    h 0 (by simp) 1 (by simp), h 1 (by simp) (-1) (by simp), h 1 (by simp) 0 (by simp),
    h 1 (by simp) 1 (by simp)]


/-! ## The reads of the scan never reach the last row -/

theorem neighbour_index_le (m n a b : Int) (hm : 2 ≤ m) (hn : 2 ≤ n) :
    (a.tmod (m - 1)) * n + b.tmod (n - 1) ≤ (m - 1) * n - 2 := by
  have h1 : a.tmod (m - 1) < m - 1 := Int.tmod_lt_of_pos a (by omega)
  have h2 : b.tmod (n - 1) < n - 1 := Int.tmod_lt_of_pos b (by omega)
  have h3 : (a.tmod (m - 1)) * n ≤ (m - 2) * n :=
    mul_le_mul_of_nonneg_right (by omega) (by omega)
  have h4 : (m - 1) * n = (m - 2) * n + n := by ring
  omega

theorem neighbourCell_eq (arr : List Int) (m n i j k l : Int) (hm : 2 ≤ m) (hn : 2 ≤ n) :
    neighbourCell arr m n i j k l =
      readCell arr ((i + k).tmod (m - 1) * n + (j + l).tmod (n - 1)) := by
  unfold neighbourCell
  rw [cRem_of_ne_zero _ _ (by omega), cRem_of_ne_zero _ _ (by omega)]
  rfl

theorem sumBlock_agree (arr arr2 : List Int) (m n i j : Int) (hm : 2 ≤ m) (hn : 2 ≤ n)
    (hlen : arr.length = arr2.length)
    (hagree : ∀ t : Nat, (t : Int) ≤ (m - 1) * n - 2 → arr.getD t 0 = arr2.getD t 0) :
    sumBlock arr m n i j = sumBlock arr2 m n i j := by
  apply sumBlock_congr
  intro k _ l _
  rw [neighbourCell_eq _ _ _ _ _ _ _ hm hn, neighbourCell_eq _ _ _ _ _ _ _ hm hn]
  exact readCell_agree arr arr2 _ _ hlen hagree (neighbour_index_le m n _ _ hm hn)

/-- C10: for `m, n ≥ 2`, any cell `(i, j)` and any offset `(k, l)` (in
particular an in-range cell and an offset in {-1,0,1} x {-1,0,1}), the wrapped
coordinates satisfy `nX ≤ m - 2` and
`nY ≤ n - 2`, the flat index read is at most `(m - 1) * n - 2`, so it is never
the index of a cell of row `m - 1` nor of cell `(m - 2, n - 1)`; hence the block
sum of every cell is the same on two arrays that differ only at such cells, and
so is the toggle decision of a cell whose own value is the same in both. -/
theorem last_row_never_read (m n i j k l : Int) (hm : 2 ≤ m) (hn : 2 ≤ n) :
    ∃ nX nY : Int,
      cRem (i + k) (m - 1) = .ok nX ∧ cRem (j + l) (n - 1) = .ok nY ∧
      (∀ arr : List Int, neighbourCell arr m n i j k l = readCell arr (nX * n + nY)) ∧
      nX ≤ m - 2 ∧ nY ≤ n - 2 ∧ nX * n + nY ≤ (m - 1) * n - 2 ∧
      (∀ c : Int, 0 ≤ c → c < n → nX * n + nY ≠ (m - 1) * n + c) ∧
      nX * n + nY ≠ (m - 2) * n + (n - 1) ∧
      (∀ arr arr2 : List Int, arr.length = arr2.length →
        (∀ t : Nat, (t : Int) ≤ (m - 1) * n - 2 → arr.getD t 0 = arr2.getD t 0) →
        sumBlock arr m n i j = sumBlock arr2 m n i j ∧
        (readCell arr (i * n + j) = readCell arr2 (i * n + j) →
          selects arr m n i j = selects arr2 m n i j)) := by
  have hle := neighbour_index_le m n (i + k) (j + l) hm hn
  have h1 : (i + k).tmod (m - 1) < m - 1 := Int.tmod_lt_of_pos _ (by omega)
  have h2 : (j + l).tmod (n - 1) < n - 1 := Int.tmod_lt_of_pos _ (by omega)
  have h4 : (m - 1) * n = (m - 2) * n + n := by ring
  refine ⟨(i + k).tmod (m - 1), (j + l).tmod (n - 1), cRem_of_ne_zero _ _ (by omega),
    cRem_of_ne_zero _ _ (by omega), fun arr => neighbourCell_eq arr m n i j k l hm hn,
    by omega, by omega, hle, ?_, ?_, ?_⟩
  · intro c hc0 _
    omega
  · omega
  · intro arr arr2 hlen hagree
    have hs := sumBlock_agree arr arr2 m n i j hm hn hlen hagree
    refine ⟨hs, fun hcell => ?_⟩
    unfold selects
    rw [hs, hcell]

/-- Witness of C10: cell (2,2) of a 3x3 grid at offset (0,1). -/
theorem last_row_never_read_witness :
    ∃ nX nY : Int,
      cRem (2 + 0) (3 - 1) = .ok nX ∧ cRem (2 + 1) (3 - 1) = .ok nY ∧
      (∀ arr : List Int, neighbourCell arr 3 3 2 2 0 1 = readCell arr (nX * 3 + nY)) ∧
      nX ≤ 3 - 2 ∧ nY ≤ 3 - 2 ∧ nX * 3 + nY ≤ (3 - 1) * 3 - 2 ∧
      (∀ c : Int, 0 ≤ c → c < 3 → nX * 3 + nY ≠ (3 - 1) * 3 + c) ∧
      nX * 3 + nY ≠ (3 - 2) * 3 + (3 - 1) ∧
      (∀ arr arr2 : List Int, arr.length = arr2.length →
        (∀ t : Nat, (t : Int) ≤ (3 - 1) * 3 - 2 → arr.getD t 0 = arr2.getD t 0) →
        sumBlock arr 3 3 2 2 = sumBlock arr2 3 3 2 2 ∧
        (readCell arr (2 * 3 + 2) = readCell arr2 (2 * 3 + 2) →
          selects arr 3 3 2 2 = selects arr2 3 3 2 2)) :=
  last_row_never_read 3 3 2 2 0 1 (by decide) (by decide)


/-! ## Interior cells -/

theorem getD_binary (arr : List Int) (hbin : ∀ v ∈ arr, v = 0 ∨ v = 1) (t : Nat) :
    arr.getD t 0 = 0 ∨ arr.getD t 0 = 1 := by
  by_cases h : t < arr.length
  · rw [List.getD_eq_getElem _ _ h]
    exact hbin _ (List.getElem_mem h)
  · left
    rw [List.getD_eq_default _ _ (by omega)]

theorem ite_eq_one_of_binary (v : Int) (h : v = 0 ∨ v = 1) :
    (if v = 1 then (1 : Int) else 0) = v := by
  rcases h with h | h <;> simp [h]

theorem interior_index_inBounds (m n a b : Int) (ha0 : 0 ≤ a) (ha : a ≤ m - 2)
    (hb0 : 0 ≤ b) (hb : b ≤ n - 2) : 0 ≤ a * n + b ∧ a * n + b < m * n := by
  have hn : 0 ≤ n := by omega
  have h1 : 0 ≤ a * n := mul_nonneg ha0 hn
  have h2 : a * n ≤ (m - 2) * n := mul_le_mul_of_nonneg_right ha hn
  have h3 : m * n = (m - 2) * n + 2 * n := by ring
  constructor <;> omega

theorem neighbourCell_interior (arr : List Int) (m n i j k l : Int)
    (hlen : (arr.length : Int) = m * n)
    (hi1 : 1 ≤ i) (hi : i ≤ m - 3) (hj1 : 1 ≤ j) (hj : j ≤ n - 3)
    (hk : k ∈ ([-1, 0, 1] : List Int)) (hl : l ∈ ([-1, 0, 1] : List Int)) :
    cRem (i + k) (m - 1) = .ok (i + k) ∧ cRem (j + l) (n - 1) = .ok (j + l) ∧
    neighbourCell arr m n i j k l = .ok (arr.getD ((i + k) * n + (j + l)).toNat 0) := by
  have hk0 : -1 ≤ k ∧ k ≤ 1 := by
    simp only [List.mem_cons, List.mem_singleton, List.not_mem_nil, or_false] at hk
    omega
  have hl0 : -1 ≤ l ∧ l ≤ 1 := by
    simp only [List.mem_cons, List.mem_singleton, List.not_mem_nil, or_false] at hl
    omega
  have hx : cRem (i + k) (m - 1) = .ok (i + k) := by
    rw [cRem_of_ne_zero _ _ (by omega), Int.tmod_eq_of_lt (by omega) (by omega)]
  have hy : cRem (j + l) (n - 1) = .ok (j + l) := by
    rw [cRem_of_ne_zero _ _ (by omega), Int.tmod_eq_of_lt (by omega) (by omega)]
  refine ⟨hx, hy, ?_⟩
  have hb := interior_index_inBounds m n (i + k) (j + l) (by omega) (by omega) (by omega)
    (by omega)
  unfold neighbourCell
  rw [hx, hy]
  exact readCell_of_inBounds arr _ hb.1 (by rw [hlen]; exact hb.2)

/-- C9: on an m-by-n grid of 0/1 cells, for a cell `(i, j)` with
`1 ≤ i ≤ m - 3` and `1 ≤ j ≤ n - 3`, every wrapped coordinate equals the
unwrapped one, every read of the block is the cell `(i + k, j + l)`, and the
count `nextGeneration` computes is the number of live cells among the eight
Moore neighbours, a value in [0,8]. -/
theorem interior_count_exact (arr : List Int) (m n i j : Int)
    (hlen : (arr.length : Int) = m * n) (hbin : ∀ v ∈ arr, v = 0 ∨ v = 1)
    (hi1 : 1 ≤ i) (hi : i ≤ m - 3) (hj1 : 1 ≤ j) (hj : j ≤ n - 3) :
    (∀ k ∈ ([-1, 0, 1] : List Int), ∀ l ∈ ([-1, 0, 1] : List Int),
      cRem (i + k) (m - 1) = .ok (i + k) ∧ cRem (j + l) (n - 1) = .ok (j + l) ∧
      neighbourCell arr m n i j k l = .ok (arr.getD ((i + k) * n + (j + l)).toNat 0)) ∧
    countNeighbours arr m n i j = .ok (liveMooreNeighbours arr n i j : Int) ∧
    (0 : Int) ≤ (liveMooreNeighbours arr n i j : Int) ∧
    (liveMooreNeighbours arr n i j : Int) ≤ 8 := by
  have hall := fun k hk l hl =>
    neighbourCell_interior arr m n i j k l hlen hi1 hi hj1 hj hk hl
  have hle : liveMooreNeighbours arr n i j ≤ 8 := by
    unfold liveMooreNeighbours
    exact le_trans (List.countP_le_length _) (by simp [mooreOffsets])
  refine ⟨hall, ?_, by omega, by omega⟩
  have hc := (hall 0 (by simp) 0 (by simp)).2.2
  have hcell : readCell arr (i * n + j) = .ok (arr.getD ((i + 0) * n + (j + 0)).toNat 0) := by
    have hb := interior_index_inBounds m n i j (by omega) (by omega) (by omega) (by omega)
    rw [readCell_of_inBounds arr _ hb.1 (by rw [hlen]; exact hb.2)]
    simp
  unfold countNeighbours
  rw [sumBlock_eq, (hall (-1) (by simp) (-1) (by simp)).2.2,
    (hall (-1) (by simp) 0 (by simp)).2.2, (hall (-1) (by simp) 1 (by simp)).2.2,
    (hall 0 (by simp) (-1) (by simp)).2.2, hc, (hall 0 (by simp) 1 (by simp)).2.2,
    (hall 1 (by simp) (-1) (by simp)).2.2, (hall 1 (by simp) 0 (by simp)).2.2,
    (hall 1 (by simp) 1 (by simp)).2.2, hcell]
  simp only [ok_bind, pure_eq_ok]
  congr 1
  unfold liveMooreNeighbours mooreOffsets
  simp only [List.countP_cons, List.countP_nil, decide_eq_true_eq]
  push_cast
  rw [ite_eq_one_of_binary _ (getD_binary arr hbin _),
    ite_eq_one_of_binary _ (getD_binary arr hbin _),
    ite_eq_one_of_binary _ (getD_binary arr hbin _),
    ite_eq_one_of_binary _ (getD_binary arr hbin _),
    ite_eq_one_of_binary _ (getD_binary arr hbin _),
    ite_eq_one_of_binary _ (getD_binary arr hbin _),
    ite_eq_one_of_binary _ (getD_binary arr hbin _),
    ite_eq_one_of_binary _ (getD_binary arr hbin _)]
  ring


/-! ## Building the toggle list -/

theorem nodesOf_length (cs : List Coord) (s : Nat) : (nodesOf s cs).length = cs.length := by
  induction cs generalizing s with
  | nil => rfl
  | cons c cs ih => simp [nodesOf, ih]

theorem nodesOf_append_singleton (cs : List Coord) (s : Nat) (c : Coord) :
    nodesOf s (cs ++ [c]) = nodesOf s cs ++ [some ⟨.addr c, .addr (s + cs.length + 1)⟩] := by
  induction cs generalizing s with
  | nil => simp [nodesOf]
  | cons d cs ih =>
    show some _ :: nodesOf (s + 1) (cs ++ [c]) = _
    rw [ih]
    have : s + 1 + cs.length + 1 = s + (cs.length + 1) + 1 := by omega
    simp only [nodesOf, List.length_cons, List.cons_append, this]

theorem getD_append_length (pre rest : Heap) (x : Option Node) :
    (pre ++ x :: rest).getD pre.length none = x := by
  rw [List.getD_eq_getElem?_getD, List.getElem?_append_right (le_refl _)]
  simp

theorem set_append_length (pre rest : Heap) (x y : Option Node) :
    (pre ++ x :: rest).set pre.length y = pre ++ y :: rest := by
  rw [List.set_append]
  simp

theorem load_append_length (pre rest : Heap) (nd : Node) :
    load (pre ++ some nd :: rest) (some pre.length) = .ok nd := by
  simp only [load, getD_append_length]

theorem store_append_length (pre rest : Heap) (nd : Node) (f : Node → Node) :
    store (pre ++ some nd :: rest) (some pre.length) f = .ok (pre ++ some (f nd) :: rest) := by
  simp only [store, getD_append_length, set_append_length]

theorem free_append_length (pre rest : Heap) (nd : Node) :
    free (pre ++ some nd :: rest) (some pre.length) = .ok (pre ++ none :: rest) := by
  simp only [free, getD_append_length, set_append_length]

theorem addToggle_builderOf (cs : List Coord) (i j : Int) :
    addToggle (builderOf cs) i j = .ok (builderOf (cs ++ [⟨i, j⟩])) := by
  have hlen := nodesOf_length cs 0
  have h1 : store (nodesOf 0 cs ++ [some ⟨.indeterminate, .indeterminate⟩,
        some ⟨.indeterminate, .indeterminate⟩]) (some cs.length)
        (fun nd => { nd with next := .addr (cs.length + 1) }) =
      .ok (nodesOf 0 cs ++ some ⟨.indeterminate, .addr (cs.length + 1)⟩ ::
        [some ⟨.indeterminate, .indeterminate⟩]) := by
    have := store_append_length (nodesOf 0 cs) [some ⟨.indeterminate, .indeterminate⟩]
      ⟨.indeterminate, .indeterminate⟩ (fun nd => { nd with next := .addr (cs.length + 1) })
    rw [hlen] at this
    exact this
  have h2 : store (nodesOf 0 cs ++ some ⟨.indeterminate, .addr (cs.length + 1)⟩ ::
        [some ⟨.indeterminate, .indeterminate⟩]) (some cs.length)
        (fun nd => { nd with coord := .addr (⟨i, j⟩ : Coord) }) =
      .ok (nodesOf 0 cs ++ some ⟨.addr ⟨i, j⟩, .addr (cs.length + 1)⟩ ::
        [some ⟨.indeterminate, .indeterminate⟩]) := by
    have := store_append_length (nodesOf 0 cs) [some ⟨.indeterminate, .indeterminate⟩]
      ⟨.indeterminate, .addr (cs.length + 1)⟩
      (fun nd => { nd with coord := .addr (⟨i, j⟩ : Coord) })
    rw [hlen] at this
    exact this
  unfold addToggle
  simp only [builderOf, malloc, List.length_append, hlen, List.length_singleton, h1, ok_bind,
    h2, pure_eq_ok, nodesOf_append_singleton, Nat.zero_add, List.append_assoc,
    List.singleton_append]
  congr 2
  by_cases hcs : cs = []
  · simp [hcs]
  · simp [hcs]

theorem builderOf_nil : Builder.init = builderOf [] := rfl

theorem markEnd_builderOf (cs : List Coord) :
    markEnd (builderOf cs) = .ok (nodesOf 0 cs ++ [some ⟨.null, .indeterminate⟩]) := by
  have := store_append_length (nodesOf 0 cs) [] ⟨.indeterminate, .indeterminate⟩
    (fun nd => { nd with coord := .null })
  rw [nodesOf_length] at this
  exact this


/-! ## The scan as a fold over the row-major list -/

theorem foldlM_flatMap_map {σ : Type} (f : σ → Int × Int → Exec σ) (ls : List Int)
    (js : List Int) (s : σ) :
    (ls.flatMap (fun i => js.map (fun j => (i, j)))).foldlM f s =
      ls.foldlM (fun s i => js.foldlM (fun s j => f s (i, j)) s) s := by
  induction ls generalizing s with
  | nil => rfl
  | cons i ls ih =>
    rw [List.flatMap_cons, List.foldlM_append, List.foldlM_cons, List.foldlM_map]
    congr 1
    funext s1
    exact ih s1

theorem scan_eq_scanCells (arr : List Int) (m n : Int) :
    scan arr m n = scanCells arr m n (rowMajor m n) := by
  unfold scan scanCells scanFrom rowMajor
  rw [foldlM_flatMap_map]

theorem nextGeneration_eq_nextGenerationIn (arr : List Int) (m n : Int) :
    nextGeneration arr m n = nextGenerationIn (rowMajor m n) arr m n := by
  unfold nextGeneration nextGenerationIn
  rw [scan_eq_scanCells]

theorem mem_loopRange (bound v : Int) : v ∈ loopRange bound ↔ 0 ≤ v ∧ v < bound := by
  unfold loopRange
  simp only [List.mem_map, List.mem_range]
  constructor
  · rintro ⟨a, ha, rfl⟩
    have : (Int.ofNat a) = (a : Int) := rfl
    omega
  · rintro ⟨h0, h1⟩
    refine ⟨v.toNat, by omega, ?_⟩
    show ((v.toNat : Nat) : Int) = v
    omega

theorem pairwise_loopRange (bound : Int) : (loopRange bound).Pairwise (fun a b => a < b) := by
  unfold loopRange
  rw [List.pairwise_map]
  exact (List.pairwise_lt_range _).imp (fun h => by
    show ((_ : Nat) : Int) < ((_ : Nat) : Int)
    exact_mod_cast h)

theorem mem_rowMajor (m n i j : Int) :
    (i, j) ∈ rowMajor m n ↔ (0 ≤ i ∧ i < m) ∧ (0 ≤ j ∧ j < n) := by
  unfold rowMajor
  simp only [List.mem_flatMap, List.mem_map, Prod.mk.injEq]
  constructor
  · rintro ⟨a, ha, b, hb, rfl, rfl⟩
    exact ⟨(mem_loopRange _ _).1 ha, (mem_loopRange _ _).1 hb⟩
  · rintro ⟨hi, hj⟩
    exact ⟨i, (mem_loopRange _ _).2 hi, j, (mem_loopRange _ _).2 hj, rfl, rfl⟩

/-- Row-major order on cells given as pairs. -/
theorem pairwise_rowMajor (m n : Int) :
    (rowMajor m n).Pairwise (fun a b => a.1 < b.1 ∨ (a.1 = b.1 ∧ a.2 < b.2)) := by
  unfold rowMajor
  rw [List.pairwise_flatMap]
  constructor
  · intro i _
    rw [List.pairwise_map]
    exact (pairwise_loopRange n).imp (fun h => Or.inr ⟨rfl, h⟩)
  · refine (pairwise_loopRange m).imp ?_
    intro a b hab x hx y hy
    simp only [List.mem_map] at hx hy
    obtain ⟨_, _, rfl⟩ := hx
    obtain ⟨_, _, rfl⟩ := hy
    exact Or.inl hab

theorem nodup_rowMajor (m n : Int) : (rowMajor m n).Nodup := by
  refine (pairwise_rowMajor m n).imp ?_
  intro a b h hab
  subst hab
  omega

/-! ## What the scan builds -/

theorem selects_ok_inBounds (arr : List Int) (m n i j : Int) (b : Bool)
    (h : selects arr m n i j = .ok b) : 0 ≤ i * n + j ∧ i * n + j < arr.length := by
  unfold selects at h
  cases hs : sumBlock arr m n i j with
  | error e => rw [hs] at h; cases h
  | ok s =>
    rw [hs] at h
    by_contra hb
    simp only [ok_bind, readCell, if_neg hb] at h
    cases h

theorem scanFrom_cons (arr : List Int) (m n : Int) (c : Int × Int) (cells : List (Int × Int))
    (st : Builder) :
    scanFrom arr m n (c :: cells) st =
      cellStep arr m n st c.1 c.2 >>= fun st1 => scanFrom arr m n cells st1 := by
  simp [scanFrom]

theorem scanFrom_ok_selects (arr : List Int) (m n : Int) (cells : List (Int × Int))
    (st st1 : Builder) (h : scanFrom arr m n cells st = .ok st1) :
    ∀ c ∈ cells, ∃ b : Bool, selects arr m n c.1 c.2 = .ok b := by
  induction cells generalizing st with
  | nil => simp
  | cons c cells ih =>
    rw [scanFrom_cons] at h
    cases hc : cellStep arr m n st c.1 c.2 with
    | error e => rw [hc] at h; cases h
    | ok st2 =>
      rw [hc] at h
      intro d hd
      rcases List.mem_cons.1 hd with rfl | hd
      · unfold cellStep at hc
        cases hsel : selects arr m n d.1 d.2 with
        | error e => rw [hsel] at hc; cases hc
        | ok b => exact ⟨b, rfl⟩
      · exact ih st2 h d hd

theorem selectedOf_cons (arr : List Int) (m n : Int) (c : Int × Int) (cells : List (Int × Int)) :
    selectedOf arr m n (c :: cells) =
      (if selects arr m n c.1 c.2 = .ok true then [(⟨c.1, c.2⟩ : Coord)] else []) ++
        selectedOf arr m n cells := by
  unfold selectedOf
  by_cases h : selects arr m n c.1 c.2 = .ok true
  · simp [List.filter_cons, h]
  · simp [List.filter_cons, h]

theorem scanFrom_builderOf (arr : List Int) (m n : Int) (cells : List (Int × Int))
    (cs : List Coord) (h : ∀ c ∈ cells, ∃ b : Bool, selects arr m n c.1 c.2 = .ok b) :
    scanFrom arr m n cells (builderOf cs) = .ok (builderOf (cs ++ selectedOf arr m n cells)) := by
  induction cells generalizing cs with
  | nil => simp [scanFrom, selectedOf, pure_eq_ok]
  | cons c cells ih =>
    obtain ⟨b, hb⟩ := h c (List.mem_cons_self _ _)
    have hrest := fun d hd => h d (List.mem_cons_of_mem _ hd)
    rw [scanFrom_cons, selectedOf_cons]
    unfold cellStep
    rw [hb]
    cases b with
    | true =>
      simp only [ok_bind, if_true, addToggle_builderOf]
      rw [ih _ hrest, List.append_assoc]
    | false =>
      have : ¬ ((Except.ok false : Exec Bool) = Except.ok true) := by
        intro e; cases e
      simp only [ok_bind, pure_eq_ok, if_neg this, List.nil_append]
      exact ih _ hrest

theorem scanCells_ok (arr : List Int) (m n : Int) (cells : List (Int × Int)) (st : Builder)
    (h : scanCells arr m n cells = .ok st) :
    (∀ c ∈ cells, ∃ b : Bool, selects arr m n c.1 c.2 = .ok b) ∧
      st = builderOf (selectedOf arr m n cells) := by
  have hsel := scanFrom_ok_selects arr m n cells _ st h
  refine ⟨hsel, ?_⟩
  have := scanFrom_builderOf arr m n cells [] hsel
  unfold scanCells at h
  rw [builderOf_nil, this] at h
  simp only [List.nil_append] at h
  cases h
  rfl


/-! ## Consuming the toggle list -/

theorem toggleAll_cons (arr : List Int) (columns : Int) (c : Coord) (cs : List Coord) :
    toggleAll arr columns (c :: cs) =
      toggle arr (c.x * columns + c.y) >>= fun arr1 => toggleAll arr1 columns cs := by
  simp [toggleAll]

theorem iterateLoop_nodesOf (columns : Int) (nx : Field Nat) (cs : List Coord) (pre : Heap)
    (arr : List Int) (fuel : Nat) (hfuel : cs.length < fuel) :
    iterateLoop fuel (some pre.length)
        (pre ++ (nodesOf pre.length cs ++ [some ⟨.null, nx⟩])) arr columns =
      toggleAll arr columns cs := by
  induction cs generalizing pre arr fuel with
  | nil =>
    obtain ⟨f, rfl⟩ : ∃ f, fuel = f + 1 := ⟨fuel - 1, by simp at hfuel; omega⟩
    simp only [nodesOf, List.nil_append, iterateLoop, load_append_length, ok_bind,
      free_append_length, pure_eq_ok, toggleAll, List.foldlM_nil]
  | cons c cs ih =>
    obtain ⟨f, rfl⟩ : ∃ f, fuel = f + 1 := ⟨fuel - 1, by omega⟩
    have hf : cs.length < f := by simp at hfuel; omega
    rw [toggleAll_cons]
    simp only [nodesOf, List.cons_append, iterateLoop, load_append_length, ok_bind,
      free_append_length, pure_eq_ok]
    cases toggle arr (c.x * columns + c.y) with
    | error e => rfl
    | ok arr1 =>
      simp only [ok_bind]
      have := ih (pre ++ [none]) arr1 f hf
      simp only [List.length_append, List.length_singleton, List.append_assoc,
        List.singleton_append] at this
      exact this

theorem iterateToggleList_nodesOf (columns : Int) (cs : List Coord) (arr : List Int)
    (hcs : cs ≠ []) :
    iterateToggleList (builderOf cs).head (nodesOf 0 cs ++ [some ⟨.null, .indeterminate⟩])
        arr columns = toggleAll arr columns cs := by
  unfold iterateToggleList
  have := iterateLoop_nodesOf columns .indeterminate cs [] arr
    ((nodesOf 0 cs ++ [some (⟨.null, .indeterminate⟩ : Node)]).length + 1)
    (by simp only [List.length_append, nodesOf_length, List.length_singleton]; omega)
  simp only [List.length_nil, List.nil_append] at this
  simp only [builderOf, if_neg hcs]
  exact this

theorem iterateToggleList_null (heap : Heap) (arr : List Int) (columns : Int) :
    iterateToggleList none heap arr columns = .error .nullDeref := rfl

/-- The generation step in a given scan order, once every cell of the order has
a defined toggle decision. -/
theorem nextGenerationIn_eq (cells : List (Int × Int)) (arr : List Int) (m n : Int)
    (h : ∀ c ∈ cells, ∃ b : Bool, selects arr m n c.1 c.2 = .ok b) :
    nextGenerationIn cells arr m n =
      if selectedOf arr m n cells = [] then .error .nullDeref
      else toggleAll arr n (selectedOf arr m n cells) := by
  have hscan := scanFrom_builderOf arr m n cells [] h
  unfold nextGenerationIn scanCells
  rw [builderOf_nil, hscan]
  simp only [List.nil_append, ok_bind, markEnd_builderOf]
  by_cases hcs : selectedOf arr m n cells = []
  · rw [if_pos hcs, hcs]
    rfl
  · rw [if_neg hcs, iterateToggleList_nodesOf _ _ _ hcs]

theorem nextGenerationIn_ok (cells : List (Int × Int)) (arr arr1 : List Int) (m n : Int)
    (h : nextGenerationIn cells arr m n = .ok arr1) :
    (∀ c ∈ cells, ∃ b : Bool, selects arr m n c.1 c.2 = .ok b) ∧
      selectedOf arr m n cells ≠ [] ∧
      toggleAll arr n (selectedOf arr m n cells) = .ok arr1 := by
  have hsel : ∀ c ∈ cells, ∃ b : Bool, selects arr m n c.1 c.2 = .ok b := by
    unfold nextGenerationIn at h
    cases hs : scanCells arr m n cells with
    | error e => rw [hs] at h; cases h
    | ok st => exact (scanCells_ok arr m n cells st hs).1
  rw [nextGenerationIn_eq cells arr m n hsel] at h
  by_cases hcs : selectedOf arr m n cells = []
  · rw [if_pos hcs] at h
    cases h
  · rw [if_neg hcs] at h
    exact ⟨hsel, hcs, h⟩

/-! ## The effect of the toggles on the array -/

theorem toggle_of_inBounds (arr : List Int) (idx : Int) (h0 : 0 ≤ idx)
    (h1 : idx < arr.length) :
    toggle arr idx = .ok (arr.set idx.toNat (flipValue (arr.getD idx.toNat 0))) := by
  unfold toggle
  rw [readCell_of_inBounds arr idx h0 h1]
  rfl

theorem getD_set (arr : List Int) (s t : Nat) (v : Int) (hs : s < arr.length) :
    (arr.set s v).getD t 0 = if t = s then v else arr.getD t 0 := by
  rw [List.getD_eq_getElem?_getD, List.getD_eq_getElem?_getD, List.getElem?_set]
  by_cases h : s = t
  · subst h
    simp [hs]
  · have h2 : ¬ t = s := fun e => h e.symm
    simp [h, h2]

theorem toggleAll_spec (columns : Int) (cs : List Coord) (arr : List Int)
    (hin : ∀ c ∈ cs, 0 ≤ c.x * columns + c.y ∧ c.x * columns + c.y < arr.length)
    (hnd : (cs.map (fun c => (c.x * columns + c.y).toNat)).Nodup) :
    ∃ arr1 : List Int, toggleAll arr columns cs = .ok arr1 ∧ arr1.length = arr.length ∧
      ∀ t : Nat, arr1.getD t 0 =
        if t ∈ cs.map (fun c => (c.x * columns + c.y).toNat) then flipValue (arr.getD t 0)
        else arr.getD t 0 := by
  induction cs generalizing arr with
  | nil => exact ⟨arr, rfl, rfl, fun t => by simp⟩
  | cons c cs ih =>
    obtain ⟨h0, h1⟩ := hin c (List.mem_cons_self _ _)
    rw [List.map_cons, List.nodup_cons] at hnd
    have hs : (c.x * columns + c.y).toNat < arr.length := by omega
    obtain ⟨arr1, hrun, hlen, hget⟩ :=
      ih (arr.set (c.x * columns + c.y).toNat (flipValue (arr.getD (c.x * columns + c.y).toNat 0)))
        (fun d hd => by
          rw [List.length_set]
          exact hin d (List.mem_cons_of_mem _ hd))
        hnd.2
    refine ⟨arr1, ?_, by rw [hlen, List.length_set], fun t => ?_⟩
    · rw [toggleAll_cons, toggle_of_inBounds arr _ h0 h1]
      exact hrun
    · rw [hget t, getD_set _ _ _ _ hs]
      by_cases ht : t = (c.x * columns + c.y).toNat
      · subst ht
        simp [hnd.1]
      · simp [ht]

theorem flatIndex_injective (n : Int) (c d : Coord)
    (hc : 0 ≤ c.y ∧ c.y < n) (hd : 0 ≤ d.y ∧ d.y < n)
    (hcx : 0 ≤ c.x) (hdx : 0 ≤ d.x)
    (h : (c.x * n + c.y).toNat = (d.x * n + d.y).toNat) : c = d := by
  have hn : 0 ≤ n := by omega
  have h1 : 0 ≤ c.x * n := mul_nonneg hcx hn
  have h2 : 0 ≤ d.x * n := mul_nonneg hdx hn
  have h3 : c.x * n + c.y = d.x * n + d.y := by omega
  have hx : c.x = d.x := by
    rcases lt_trichotomy c.x d.x with hlt | heq | hgt
    · have : (c.x + 1) * n ≤ d.x * n := mul_le_mul_of_nonneg_right (by omega) hn
      have : (c.x + 1) * n = c.x * n + n := by ring
      omega
    · exact heq
    · have : (d.x + 1) * n ≤ c.x * n := mul_le_mul_of_nonneg_right (by omega) hn
      have : (d.x + 1) * n = d.x * n + n := by ring
      omega
  have hy : c.y = d.y := by
    rw [hx] at h3
    omega
  cases c
  cases d
  simp only [Coord.mk.injEq]
  exact ⟨hx, hy⟩


/-! ## The selected coordinates -/

theorem mem_selectedOf (arr : List Int) (m n : Int) (cells : List (Int × Int)) (c : Coord) :
    c ∈ selectedOf arr m n cells ↔
      (c.x, c.y) ∈ cells ∧ selects arr m n c.x c.y = .ok true := by
  unfold selectedOf
  simp only [List.mem_map, List.mem_filter, decide_eq_true_eq]
  constructor
  · rintro ⟨p, ⟨hp, hs⟩, rfl⟩
    exact ⟨hp, hs⟩
  · rintro ⟨hp, hs⟩
    exact ⟨(c.x, c.y), ⟨hp, hs⟩, rfl⟩

theorem selectedOf_pairwise (arr : List Int) (m n : Int) (cells : List (Int × Int))
    (R : Int × Int → Int × Int → Prop) (S : Coord → Coord → Prop)
    (hRS : ∀ a b : Int × Int, R a b → S ⟨a.1, a.2⟩ ⟨b.1, b.2⟩)
    (h : cells.Pairwise R) : (selectedOf arr m n cells).Pairwise S := by
  unfold selectedOf
  rw [List.pairwise_map]
  exact (h.filter _).imp (fun hab => hRS _ _ hab)

theorem selectedOf_nodup (arr : List Int) (m n : Int) (cells : List (Int × Int))
    (h : cells.Nodup) : (selectedOf arr m n cells).Nodup := by
  refine selectedOf_pairwise arr m n cells (fun a b => a ≠ b) (fun a b => a ≠ b) ?_ h
  intro a b hab e
  apply hab
  cases a
  cases b
  simp only [Coord.mk.injEq] at e
  simp only [Prod.mk.injEq]
  exact e

theorem selectedOf_indices_nodup (arr : List Int) (m n : Int) (cells : List (Int × Int))
    (hnd : cells.Nodup) (hrange : ∀ c ∈ cells, 0 ≤ c.1 ∧ 0 ≤ c.2 ∧ c.2 < n) :
    ((selectedOf arr m n cells).map (fun c => (c.x * n + c.y).toNat)).Nodup := by
  refine (selectedOf_nodup arr m n cells hnd).map_on ?_
  intro c hc d hd hcd
  have h1 := hrange _ ((mem_selectedOf arr m n cells c).1 hc).1
  have h2 := hrange _ ((mem_selectedOf arr m n cells d).1 hd).1
  exact flatIndex_injective n c d ⟨h1.2.1, h1.2.2⟩ ⟨h2.2.1, h2.2.2⟩ h1.1 h2.1 hcd

theorem selectedOf_inBounds (arr : List Int) (m n : Int) (cells : List (Int × Int)) :
    ∀ c ∈ selectedOf arr m n cells, 0 ≤ c.x * n + c.y ∧ c.x * n + c.y < arr.length := by
  intro c hc
  exact selects_ok_inBounds arr m n c.x c.y true ((mem_selectedOf arr m n cells c).1 hc).2

/-- The array after a generation step whose scan visits the distinct cells of
`cells`: the selected cells are flipped, every other cell is unchanged. -/
theorem nextGenerationIn_spec (cells : List (Int × Int)) (arr arr1 : List Int) (m n : Int)
    (hnd : cells.Nodup) (hrange : ∀ c ∈ cells, 0 ≤ c.1 ∧ 0 ≤ c.2 ∧ c.2 < n)
    (h : nextGenerationIn cells arr m n = .ok arr1) :
    arr1.length = arr.length ∧
      ∀ t : Nat, arr1.getD t 0 =
        if t ∈ (selectedOf arr m n cells).map (fun c => (c.x * n + c.y).toNat)
        then flipValue (arr.getD t 0) else arr.getD t 0 := by
  obtain ⟨_, _, hrun⟩ := nextGenerationIn_ok cells arr arr1 m n h
  obtain ⟨arr2, hrun2, hlen, hget⟩ := toggleAll_spec n (selectedOf arr m n cells) arr
    (selectedOf_inBounds arr m n cells) (selectedOf_indices_nodup arr m n cells hnd hrange)
  rw [hrun] at hrun2
  cases hrun2
  exact ⟨hlen, hget⟩

theorem rowMajor_range (m n : Int) : ∀ c ∈ rowMajor m n, 0 ≤ c.1 ∧ 0 ≤ c.2 ∧ c.2 < n := by
  intro c hc
  have := (mem_rowMajor m n c.1 c.2).1 hc
  omega

theorem liveCount_set_none (heap : Heap) (a : Nat) (nd : Node)
    (h : heap.getD a none = some nd) : liveCount (heap.set a none) + 1 = liveCount heap := by
  induction heap generalizing a with
  | nil => simp at h
  | cons x heap ih =>
    cases a with
    | zero =>
      simp only [List.getD_cons_zero] at h
      subst h
      simp [liveCount, List.filter_cons]
    | succ a =>
      simp only [List.getD_cons_succ] at h
      have := ih a h
      unfold liveCount at this ⊢
      cases x with
      | none => simpa [List.filter_cons] using this
      | some y => simp only [List.set_cons_succ, List.filter_cons, Option.isSome_some, if_true,
          List.length_cons]; omega

theorem liveCount_le_length (heap : Heap) : liveCount heap ≤ heap.length :=
  List.length_filter_le _ _

theorem toggle_error (arr : List Int) (idx : Int) (e : Fault) (h : toggle arr idx = .error e) :
    e = .outOfBounds := by
  unfold toggle readCell at h
  by_cases hb : 0 ≤ idx ∧ idx < (arr.length : Int)
  · rw [if_pos hb] at h
    cases h
  · rw [if_neg hb] at h
    cases h
    rfl

theorem iterateLoop_fuel_enough (columns : Int) (fuel : Nat) (current : NodePtr) (heap : Heap)
    (arr : List Int) (h : liveCount heap < fuel) :
    iterateLoop fuel current heap arr columns ≠ .error .fuelExhausted := by
  induction fuel generalizing current heap arr with
  | zero => omega
  | succ fuel ih =>
    unfold iterateLoop
    cases current with
    | none => intro e; cases e
    | some a =>
      cases hget : heap.getD a none with
      | none =>
        simp only [load, hget]
        intro e; cases e
      | some nd =>
        have hlive := liveCount_set_none heap a nd hget
        have hfree : free heap (some a) = .ok (heap.set a none) := by simp only [free, hget]
        simp only [load, hget, ok_bind, hfree]
        cases hc : nd.coord with
        | indeterminate => intro e; cases e
        | null => intro e; cases e
        | addr c =>
          simp only
          cases ht : toggle arr (c.x * columns + c.y) with
          | error e =>
            have := toggle_error _ _ _ ht
            subst this
            intro e; cases e
          | ok arr1 =>
            simp only [ok_bind]
            cases hn : nd.next with
            | indeterminate => intro e; cases e
            | null => exact ih none _ arr1 (by omega)
            | addr a2 => exact ih (some a2) _ arr1 (by omega)

/-- The budget of `iterateToggleList` is never what stops it. -/
theorem iterateToggleList_fuel_enough (head : NodePtr) (heap : Heap) (arr : List Int)
    (columns : Int) : iterateToggleList head heap arr columns ≠ .error .fuelExhausted :=
  iterateLoop_fuel_enough columns _ head heap arr
    (Nat.lt_succ_of_le (liveCount_le_length heap))

/-! ## A generation on which nothing changes -/

/-- Whenever the scan completes without selecting a cell, `head` is `NULL` and
`nextGeneration` faults in `iterateToggleList`. -/
theorem nextGeneration_of_empty_list (arr : List Int) (m n : Int) (st : Builder)
    (hscan : scan arr m n = .ok st) (hhead : st.head = none) :
    nextGeneration arr m n = .error .nullDeref := by
  rw [scan_eq_scanCells] at hscan
  obtain ⟨hsel, hst⟩ := scanCells_ok arr m n _ st hscan
  rw [nextGeneration_eq_nextGenerationIn, nextGenerationIn_eq _ arr m n hsel]
  have : selectedOf arr m n (rowMajor m n) = [] := by
    by_contra hne
    rw [hst] at hhead
    simp [builderOf, hne] at hhead
  rw [if_pos this]


/-! ## Grids on which the scan faults at its first read -/

theorem tmod_neg_one (b : Int) (hb : 2 ≤ b) : (-1 : Int).tmod b = -1 := by
  obtain ⟨k, rfl⟩ : ∃ k : Nat, b = ((k + 2 : Nat) : Int) := ⟨(b - 2).toNat, by omega⟩
  show -(((0 + 1) % (k + 2) : Nat) : Int) = -1
  rw [Nat.mod_eq_of_lt (by omega)]
  rfl

theorem loopRange_of_pos (bound : Int) (h : 1 ≤ bound) :
    ∃ rest, loopRange bound = 0 :: rest := by
  obtain ⟨k, hk⟩ : ∃ k : Nat, bound.toNat = k + 1 := ⟨bound.toNat - 1, by omega⟩
  unfold loopRange
  rw [hk, List.range_succ_eq_map]
  exact ⟨_, rfl⟩

theorem rowMajor_of_pos (m n : Int) (hm : 1 ≤ m) (hn : 1 ≤ n) :
    ∃ rest, rowMajor m n = (0, 0) :: rest := by
  obtain ⟨r1, h1⟩ := loopRange_of_pos m hm
  obtain ⟨r2, h2⟩ := loopRange_of_pos n hn
  unfold rowMajor
  rw [h1, List.flatMap_cons, h2]
  exact ⟨_, rfl⟩

theorem first_read_outOfBounds (arr : List Int) (m n : Int) (hm : 2 ≤ m) (hn : 2 ≤ n)
    (h : 3 ≤ m ∨ 3 ≤ n) : neighbourCell arr m n 0 0 (-1) (-1) = .error .outOfBounds := by
  rw [neighbourCell_eq arr m n 0 0 (-1) (-1) hm hn]
  apply readCell_of_neg
  simp only [Int.zero_add]
  by_cases hm3 : 3 ≤ m
  · rw [tmod_neg_one (m - 1) (by omega)]
    have : (-1 : Int).tmod (n - 1) ≤ 0 := by
      by_cases hn3 : 3 ≤ n
      · rw [tmod_neg_one (n - 1) (by omega)]
        omega
      · have : n - 1 = 1 := by omega
        rw [this, Int.tmod_one]
    omega
  · have hm2 : m - 1 = 1 := by omega
    have hn3 : 3 ≤ n := by omega
    rw [hm2, Int.tmod_one, tmod_neg_one (n - 1) (by omega)]
    omega

/-- On every grid with `m, n ≥ 2` other than a 2x2 grid, the first read of the
scan (cell (0,0), offset (-1,-1)) is out of bounds, so `nextGeneration` faults. -/
theorem nextGeneration_outOfBounds (arr : List Int) (m n : Int) (hm : 2 ≤ m) (hn : 2 ≤ n)
    (h : 3 ≤ m ∨ 3 ≤ n) : nextGeneration arr m n = .error .outOfBounds := by
  obtain ⟨rest, hrest⟩ := rowMajor_of_pos m n (by omega) (by omega)
  have hsel : selects arr m n 0 0 = .error .outOfBounds := by
    unfold selects
    rw [sumBlock_eq, first_read_outOfBounds arr m n hm hn h]
    rfl
  rw [nextGeneration_eq_nextGenerationIn]
  unfold nextGenerationIn scanCells
  rw [hrest, scanFrom_cons]
  unfold cellStep
  rw [hsel]
  rfl


/-! ## The two-phase update -/

/-- A completed call never leaves the array as it was: the list it consumed was
not empty, and a toggled cell changes. -/
theorem nextGeneration_ne_self (arr : List Int) (m n : Int) :
    nextGeneration arr m n ≠ .ok arr := by
  intro h
  rw [nextGeneration_eq_nextGenerationIn] at h
  obtain ⟨_, hne, _⟩ := nextGenerationIn_ok _ arr arr m n h
  obtain ⟨_, hget⟩ := nextGenerationIn_spec _ arr arr m n (nodup_rowMajor m n)
    (rowMajor_range m n) h
  obtain ⟨c, hc⟩ := List.exists_mem_of_ne_nil _ hne
  have := hget (c.x * n + c.y).toNat
  rw [if_pos (List.mem_map_of_mem _ hc)] at this
  unfold flipValue at this
  by_cases h0 : arr.getD (c.x * n + c.y).toNat 0 = 0
  · rw [if_pos h0, h0] at this
    cases this
  · rw [if_neg h0] at this
    exact h0 this

/-! ## Instances of the general theorems -/

/-- Witness of C9: cell (1,1) of a 4x4 grid has four live Moore neighbours. -/
theorem interior_count_exact_witness :
    (([1, 1, 0, 0, 0, 1, 0, 0, 1, 0, 1, 0, 0, 0, 0, 0] : List Int).length : Int) = 4 * 4 ∧
    (∀ v ∈ ([1, 1, 0, 0, 0, 1, 0, 0, 1, 0, 1, 0, 0, 0, 0, 0] : List Int), v = 0 ∨ v = 1) ∧
    liveMooreNeighbours [1, 1, 0, 0, 0, 1, 0, 0, 1, 0, 1, 0, 0, 0, 0, 0] 4 1 1 = 4 ∧
    countNeighbours [1, 1, 0, 0, 0, 1, 0, 0, 1, 0, 1, 0, 0, 0, 0, 0] 4 4 1 1 =
      .ok (liveMooreNeighbours [1, 1, 0, 0, 0, 1, 0, 0, 1, 0, 1, 0, 0, 0, 0, 0] 4 1 1 : Int) :=
  ⟨by decide, by decide, by decide,
    (interior_count_exact [1, 1, 0, 0, 0, 1, 0, 0, 1, 0, 1, 0, 0, 0, 0, 0] 4 4 1 1
      (by decide) (by decide) (by decide) (by decide) (by decide) (by decide)).2.1⟩

end GameOfLife
